import Mathlib

/-!
Shallow embedding of the rational_pemdas expression evaluator.

The embedding follows the Rust sources file by file:
value.rs (the exact mixed-number type and its arithmetic), lex.rs
(tokenizer, precedence table and shunting-yard conversion) and tree.rs
(tree construction from the postfix stream and recursive evaluation).

Modelling conventions:
- Machine integers (i64) are modelled as mathematical integers Int.
  Overflow is not modelled; no claim under consideration is about
  overflow behaviour.  Truncated division and remainder of Rust
  (slash and percent on i64) are Int.tdiv and Int.tmod, which agree
  with Rust exactly: quotient rounds toward zero, remainder takes the
  sign of the dividend.
- gcd and lcm from the num crate return nonnegative results for i64;
  they are modelled as Int.gcd and Int.lcm coerced to Int.
- A Rust panic (explicit panic, expect on None, unreachable code or
  i64 division by zero) is the only failure mode of the program.  It is
  modelled as Except.error carrying RunError.panic: every error value
  in this development denotes a process abort, not a recoverable error.
- Rust code that can abort is given return type Except RunError _,
  and a division site that can see a zero divisor is preceded by the
  corresponding error case exactly where the Rust division would trap.
-/

namespace RationalPemdas

/-- Decidable equality for Except, used to evaluate the embedding on
concrete inputs. -/
instance {ε α : Type} [DecidableEq ε] [DecidableEq α] : DecidableEq (Except ε α) := fun x y =>
  match x, y with
  | .error a, .error b =>
    if h : a = b then .isTrue (congrArg Except.error h)
    else .isFalse (fun he => h (Except.error.inj he))
  | .ok a, .ok b =>
    if h : a = b then .isTrue (congrArg Except.ok h)
    else .isFalse (fun he => h (Except.ok.inj he))
  | .error _, .ok _ => .isFalse (fun he => Except.noConfusion he)
  | .ok _, .error _ => .isFalse (fun he => Except.noConfusion he)

/-- A process abort.  The Rust program has no recoverable error channel:
every failure in the sources is a panic (explicit panic macro, expect on
a missing value, unreachable code, or an i64 division by zero). -/
inductive RunError where
  | panic (msg : String)
deriving DecidableEq

/-! ## value.rs -/

/-- The exact number type of value.rs: a 64-bit integer or a mixed number
quotient + remainder / divisor. -/
inductive Value where
  | Integer (i : Int)
  | Rational (quotient remainder divisor : Int)
deriving DecidableEq

/-- The second half of Value::simplify from value.rs, after the optional
gcd reduction: absorb the integer part of remainder / divisor into the
quotient, then return Rational for a nonzero remainder and Integer
otherwise.  The division remainder / divisor in the source aborts the
process when the divisor is zero, which is the error case here. -/
def Value.simplifyTail (quotient remainder divisor : Int) : Except RunError Value :=
  if divisor = 0 then .error (.panic ("attempt to divide by zero"))
  else
    let t := remainder.tdiv divisor
    let quotient1 := if t ≠ 0 then quotient + t else quotient
    let remainder1 := if t ≠ 0 then remainder - divisor * t else remainder
    if remainder1 ≠ 0 then .ok (.Rational quotient1 remainder1 divisor)
    else .ok (.Integer quotient1)

/-- Value::simplify from value.rs.  Reduces remainder and divisor by
their gcd unless the gcd equals the divisor, then continues with the
absorb-and-return half (simplifyTail).  The gcd divisions cannot trap:
gcd = 0 forces remainder = divisor = 0, where the reduction branch is
skipped. -/
def Value.simplify : Value → Except RunError Value
  | .Integer i => .ok (.Integer i)
  | .Rational quotient remainder divisor =>
    let common : Int := Int.gcd remainder divisor
    if common ≠ divisor then
      Value.simplifyTail quotient (remainder.tdiv common) (divisor.tdiv common)
    else
      Value.simplifyTail quotient remainder divisor

/-- PartialEq of Value against i64 from value.rs: an Integer compares its
payload, a Rational is never equal to an integer. -/
def Value.eqInt : Value → Int → Bool
  | .Integer i, other => i == other
  | .Rational _ _ _, _ => false

/-- impl Add for Value.  Integer plus Integer stays Integer; the mixed
arms fold the integer into the quotient without simplifying; two
Rationals are unified over lcm of the divisors and then simplified.
checked_div followed by unwrap_or(1) yields 1 when the divisor being
divided by is zero. -/
def Value.add : Value → Value → Except RunError Value
  | .Integer lhs, .Integer rhs => .ok (.Integer (lhs + rhs))
  | .Rational quotient remainder divisor, .Integer rhs
  | .Integer rhs, .Rational quotient remainder divisor =>
      .ok (.Rational (quotient + rhs) remainder divisor)
  | .Rational lq lr ld, .Rational rq rr rd =>
      let divisor : Int := Int.lcm ld rd
      let quotient := lq + rq
      let remainder := lr * (if ld = 0 then 1 else divisor.tdiv ld)
                     + rr * (if rd = 0 then 1 else divisor.tdiv rd)
      Value.simplify (.Rational quotient remainder divisor)

/-- impl Sub for Value.  Note that the two mixed arms are a single Rust
or-pattern binding the Rational fields and rhs by name, so an Integer
minus a Rational takes the same code path as a Rational minus an
Integer: both produce quotient - rhs over the unchanged fraction. -/
def Value.sub : Value → Value → Except RunError Value
  | .Integer lhs, .Integer rhs => .ok (.Integer (lhs - rhs))
  | .Rational quotient remainder divisor, .Integer rhs
  | .Integer rhs, .Rational quotient remainder divisor =>
      .ok (.Rational (quotient - rhs) remainder divisor)
  | .Rational lq lr ld, .Rational rq rr rd =>
      let divisor : Int := Int.lcm ld rd
      let quotient := lq - rq
      let remainder := lr * (if ld = 0 then 1 else divisor.tdiv ld)
                     - rr * (if rd = 0 then 1 else divisor.tdiv rd)
      Value.simplify (.Rational quotient remainder divisor)

/-- The Rational times Rational arm of impl Mul for Value: flatten both
mixed numbers to improper fractions, multiply, simplify. -/
def Value.mulRatRat (lq lr ld rq rr rd : Int) : Except RunError Value :=
  let remainder := ((lq * ld) + lr) * ((rq * rd) + rr)
  let divisor := ld * rd
  Value.simplify (.Rational 0 remainder divisor)

/-- impl Mul for Value.  The mixed or-pattern arm rebuilds the integer as
Rational rhs 0 1 and re-applies the operator; that call lands in the
Rational times Rational arm, written out as mulRatRat, with the Rational
operand always on the left regardless of which side it came from. -/
def Value.mul : Value → Value → Except RunError Value
  | .Integer lhs, .Integer rhs => .ok (.Integer (lhs * rhs))
  | .Rational q r d, .Integer rhs
  | .Integer rhs, .Rational q r d => Value.mulRatRat q r d rhs 0 1
  | .Rational lq lr ld, .Rational rq rr rd => Value.mulRatRat lq lr ld rq rr rd

/-- The Rational over Rational arm of impl Div for Value: flatten both
mixed numbers, cross-multiply, simplify. -/
def Value.divRatRat (lq lr ld rq rr rd : Int) : Except RunError Value :=
  let remainder := ((lq * ld) + lr) * rd
  let divisor := ld * ((rq * rd) + rr)
  Value.simplify (.Rational 0 remainder divisor)

/-- impl Div for Value.  Integer over Integer goes straight to simplify
of Rational 0 lhs rhs.  The mixed or-pattern arm rebuilds the integer as
Rational rhs 0 1 and re-applies the operator, landing in divRatRat with
the Rational operand always on the left regardless of which side it came
from (so an Integer divided by a Rational actually computes the Rational
divided by the Integer). -/
def Value.div : Value → Value → Except RunError Value
  | .Integer lhs, .Integer rhs => Value.simplify (.Rational 0 lhs rhs)
  | .Rational q r d, .Integer rhs
  | .Integer rhs, .Rational q r d => Value.divRatRat q r d rhs 0 1
  | .Rational lq lr ld, .Rational rq rr rd => Value.divRatRat lq lr ld rq rr rd

/-- impl Neg for Value: negate an Integer directly; for a Rational,
negate the quotient, with the sentinel value -1 standing in when the
quotient is zero. -/
def Value.neg : Value → Value
  | .Integer i => .Integer (-i)
  | .Rational quotient remainder divisor =>
      .Rational (if quotient = 0 then -1 else -quotient) remainder divisor

instance : Neg Value := ⟨Value.neg⟩

/-! ## lex.rs: tokens -/

/-- The operator enumeration of lex.rs. -/
inductive Operator where
  | Add
  | Sub
  | Mul
  | Div
  | USub
deriving DecidableEq

/-- Operator::from_char. -/
def Operator.fromChar : Char → Option Operator
  | '+' => some .Add
  | '-' => some .Sub
  | '*' => some .Mul
  | '/' => some .Div
  | 'u' => some .USub
  | _ => none

/-- The parenthesis enumeration of lex.rs. -/
inductive Paren where
  | Left
  | Right
deriving DecidableEq

/-- Paren::from_char. -/
def Paren.fromChar : Char → Option Paren
  | '(' => some .Left
  | ')' => some .Right
  | _ => none

/-- The token type of lex.rs. -/
inductive Token where
  | Operator (op : Operator)
  | Value (v : Value)
  | Paren (p : Paren)
deriving DecidableEq

/-- Whether a token is a parenthesis. -/
def Token.isParen : Token → Bool
  | .Paren _ => true
  | _ => false

/-- Operator::evaluate from lex.rs.  Division first compares the right
operand against the integer zero (via PartialEq of Value and i64) and
aborts with a Divide by zero panic when the comparison succeeds; note
the comparison is false for every Rational operand. -/
def Operator.evaluate (op : Operator) (left right : Value) : Except RunError Value :=
  match op with
  | .Add => left.add right
  | .Sub => left.sub right
  | .Mul => left.mul right
  | .Div =>
      if right.eqInt 0 then .error (.panic ("Divide by zero"))
      else left.div right
  | .USub => .ok (-right)

/-! ## lex.rs: the tokenizer -/

/-- The character set of the filter at the top of tokenize: every other
character of the input is discarded before scanning.  Note that the hat
character is part of the set even though no token is ever produced for
it. -/
def recognizedChars : List Char := "1234567890./*-+^()".toList

/-- Numeric value of a decimal digit character. -/
def digitVal (c : Char) : Nat := c.toNat - 48

/-- Value of a list of decimal digit characters, most significant first. -/
def digitsVal (ds : List Char) : Nat :=
  ds.foldl (fun acc c => 10 * acc + digitVal c) 0

/-- Modelled from the source chain str::parse::<f64> followed by
From<f64> for Value via fraction::GenericFraction::<i64>::from: the
buffer (made of digits and dots only) denotes a decimal number, which
is converted here exactly to the reduced fraction numer / denom with
denom = 10 ^ (number of fraction digits), and stored with quotient 0.
The real program routes the literal through f64, so this model is
faithful exactly when the decimal value of the literal is representable
in f64: in particular for every whole-number literal below 2 ^ 53 and
for the short literals used in the concrete claims.  Literals beyond
that are rounded by the program but not by this model, so theorems
that quantify over literal values restrict themselves to the exact
range.  The ratio type of the num crate keeps fractions reduced by
construction, and no simplify call is made by the source. -/
def Value.fromDecimal (buffer : List Char) : Value :=
  let intPart := buffer.takeWhile (fun c => c != '.')
  let fracPart := (buffer.dropWhile (fun c => c != '.')).drop 1
  let numer := digitsVal (intPart ++ fracPart)
  let denom := 10 ^ fracPart.length
  let g := Nat.gcd numer denom
  Value.Rational 0 ((numer / g : Nat) : Int) ((denom / g : Nat) : Int)

/-- Parsing the accumulated literal buffer, as done by
buffer.parse::<Token>() with expect in tokenize.  The buffer holds only
digits and dots; the f64 parse succeeds exactly when there is at most
one dot and at least one digit, and a failed parse makes the expect
abort the process. -/
def parseLiteral (buffer : List Char) : Except RunError Token :=
  if buffer.count '.' ≤ 1 ∧ buffer.any (fun c => c.isDigit) then
    .ok (Token.Value (Value.fromDecimal buffer))
  else .error (.panic ("Failed to parse buffer"))

/-- The unary-minus test of tokenize: the most recent token (or Operator
Add when none has been produced yet, via unwrap_or) must be an operator
or a left parenthesis. -/
def lastAllowsUnary (tokens : List Token) : Bool :=
  match tokens.getLast? with
  | none => true
  | some (Token.Operator _) => true
  | some (Token.Paren .Left) => true
  | some _ => false

/-- The operator and parenthesis branches at the bottom of the scan loop
of tokenize: push an operator token, else a parenthesis token, else
nothing (this is where the hat character is silently skipped). -/
def pushSym (c : Char) : List Token :=
  match Operator.fromChar c with
  | some op => [Token.Operator op]
  | none =>
    match Paren.fromChar c with
    | some p => [Token.Paren p]
    | none => []

/-- The scan loop of tokenize over the filtered character list, carrying
the numeric-literal buffer and the tokens produced so far.  When a
non-numeric character is met with a nonempty buffer, the source flushes
the buffer and steps the index back to reprocess the character; after
the flush the last token is a Value and the buffer is empty, so the
reprocessing can only take the operator or parenthesis branches, which
is fused here into the flush step as pushSym. -/
def scanTokens : List Char → List Char → List Token → Except RunError (List Token)
  | [], buffer, tokens =>
    if buffer.isEmpty then .ok tokens
    else
      match parseLiteral buffer with
      | .error e => .error e
      | .ok t => .ok (tokens ++ [t])
  | c :: rest, buffer, tokens =>
    if buffer.isEmpty && c == '-' && lastAllowsUnary tokens then
      scanTokens rest buffer (tokens ++ [Token.Operator .USub])
    else if c.isDigit || c == '.' then
      scanTokens rest (buffer ++ [c]) tokens
    else if buffer.isEmpty then
      scanTokens rest buffer (tokens ++ pushSym c)
    else
      match parseLiteral buffer with
      | .error e => .error e
      | .ok t => scanTokens rest [] ((tokens ++ [t]) ++ pushSym c)

/-- tokenize from lex.rs: filter the input down to the recognized
character set, then scan with an empty buffer and no tokens. -/
def tokenize (s : String) : Except RunError (List Token) :=
  scanTokens (s.toList.filter (fun c => recognizedChars.contains c)) [] []

/-! ## lex.rs: shunting yard -/

/-- The precedence table of lex.rs (zero for non-operators). -/
def precedence : Token → Nat
  | .Operator o =>
    match o with
    | .Add => 2
    | .Sub => 2
    | .Mul => 3
    | .Div => 3
    | .USub => 5
  | _ => 0

/-- Operator associativity: USub is right associative, everything else
left associative. -/
inductive OperatorAssociativity where
  | Left
  | Right
deriving DecidableEq

/-- From Token for OperatorAssociativity. -/
def OperatorAssociativity.ofToken : Token → OperatorAssociativity
  | .Operator .USub => .Right
  | _ => .Left

/-- The inner while loop of the operator case of shunting_yard: walk the
operator stack (head is the top), stopping at a parenthesis or when the
precedence test of the source says to stop, and otherwise popping to the
output.  Returns the popped tokens in pop order and the remaining
stack. -/
def popLoop (token : Token) (p : Nat) : List Token → List Token × List Token
  | [] => ([], [])
  | o :: rest =>
    match o with
    | Token.Paren _ => ([], o :: rest)
    | _ =>
      if (match OperatorAssociativity.ofToken token with
          | OperatorAssociativity.Left => decide (precedence o < p)
          | OperatorAssociativity.Right => decide (precedence o ≤ p)) then
        ([], o :: rest)
      else
        let res := popLoop token p rest
        (o :: res.1, res.2)

/-- The right-parenthesis loop of shunting_yard: pop the stack to the
output until a left parenthesis is popped and discarded; an exhausted
stack ends the loop silently. -/
def popUntilLeft : List Token → List Token × List Token
  | [] => ([], [])
  | t :: rest =>
    match t with
    | Token.Paren .Left => ([], rest)
    | _ =>
      let res := popUntilLeft rest
      (t :: res.1, res.2)

/-- The main loop of shunting_yard, carrying the output and the operator
stack (head is the top).  At the end of the input the whole remaining
stack is popped to the output, parentheses included. -/
def syGo : List Token → List Token → List Token → List Token
  | [], output, opstack => output ++ opstack
  | token :: rest, output, opstack =>
    match token with
    | Token.Value _ => syGo rest (output ++ [token]) opstack
    | Token.Operator _ =>
      let res := popLoop token (precedence token) opstack
      syGo rest (output ++ res.1) (token :: res.2)
    | Token.Paren .Left => syGo rest output (token :: opstack)
    | Token.Paren .Right =>
      let res := popUntilLeft opstack
      syGo rest (output ++ res.1) res.2

/-- shunting_yard from lex.rs. -/
def shunting_yard (tokens : List Token) : List Token :=
  syGo tokens [] []

/-! ## tree.rs -/

/-- The tree node of tree.rs: one token and up to two owned children. -/
inductive Node where
  | mk (token : Token) (left : Option Node) (right : Option Node)

/-- The stack loop of From<Vec<Token>> for Tree: values push leaves,
USub pops one child, any other operator pops right then left, and a
parenthesis token reaches code marked unreachable, aborting.  Pops from
an empty stack abort through expect. -/
def buildStack : List Token → List Node → Except RunError (List Node)
  | [], stack => .ok stack
  | token :: rest, stack =>
    match token with
    | Token.Value _ => buildStack rest (Node.mk token none none :: stack)
    | Token.Operator Operator.USub =>
      match stack with
      | [] => .error (.panic ("Unable to pop from empty stack"))
      | value :: stack => buildStack rest (Node.mk token none (some value) :: stack)
    | Token.Operator _ =>
      match stack with
      | [] => .error (.panic ("Stack should not be empty"))
      | a :: rest2 =>
        match rest2 with
        | [] => .error (.panic ("Stack should not be empty"))
        | b :: stack => buildStack rest (Node.mk token (some b) (some a) :: stack)
    | Token.Paren _ => .error (.panic ("internal error: entered unreachable code"))

/-- A tree owns its root node. -/
structure Tree where
  root : Node

/-- From<Vec<Token>> for Tree: run the stack loop and take the top of
the final stack as the root (extra nodes left below the top are ignored
by the source; an empty stack aborts through expect). -/
def Tree.ofTokens (stream : List Token) : Except RunError Tree :=
  match buildStack stream [] with
  | .error e => .error e
  | .ok stack =>
    match stack with
    | [] => .error (.panic ("Empty string? maybe? (stack empty)"))
    | root :: _ => .ok { root := root }

/-- Node::evaluate from tree.rs: leaves return their value, USub negates
the right child, other operators evaluate left then right and apply the
operator; missing children abort through expect, and a parenthesis
token in the tree is unreachable code. -/
def Node.evaluate : Node → Except RunError Value
  | .mk (Token.Value v) _ _ => .ok v
  | .mk (Token.Operator Operator.USub) _ right =>
    match right with
    | none => .error (.panic ("Something went wrong! (evaluate unary minus without right child)"))
    | some r =>
      match r.evaluate with
      | .error e => .error e
      | .ok rv => .ok (-rv)
  | .mk (Token.Operator op) left right =>
    match left with
    | none => .error (.panic ("Something went wrong! (evaluate non unary operator node without left child)"))
    | some l =>
      match l.evaluate with
      | .error e => .error e
      | .ok lv =>
        match right with
        | none => .error (.panic ("Something went wrong! (evaluate non unary operator node without right child)"))
        | some r =>
          match r.evaluate with
          | .error e => .error e
          | .ok rv => op.evaluate lv rv
  | .mk (Token.Paren _) _ _ => .error (.panic ("internal error: entered unreachable code"))

/-- Tree::evaluate. -/
def Tree.evaluate (t : Tree) : Except RunError Value :=
  t.root.evaluate

/-- The whole pipeline, Tree::new followed by Tree::evaluate: this is
the top-level evaluation of an input string (calc in main.rs, evaluate
in the specification). -/
def evaluate (s : String) : Except RunError Value :=
  match tokenize s with
  | .error e => .error e
  | .ok tokens =>
    match Tree.ofTokens (shunting_yard tokens) with
    | .error e => .error e
    | .ok tree => tree.evaluate

/-! ## Specification-side definitions -/

/-- The normalization invariant of the specification for a Value: an
Integer is always normalized; a Rational must have a nonzero divisor, a
fraction in lowest terms, a remainder strictly smaller than the divisor
in absolute value, and a nonzero remainder (a zero remainder must be
represented as Integer). -/
def Value.Normalized : Value → Prop
  | .Integer _ => True
  | .Rational _ remainder divisor =>
      divisor ≠ 0 ∧ Int.gcd remainder divisor = 1 ∧ remainder ≠ 0 ∧
        remainder.natAbs < divisor.natAbs

instance : DecidablePred Value.Normalized := fun v =>
  match v with
  | .Integer _ => isTrue trivial
  | .Rational _ remainder divisor =>
      inferInstanceAs (Decidable (divisor ≠ 0 ∧ Int.gcd remainder divisor = 1 ∧
        remainder ≠ 0 ∧ remainder.natAbs < divisor.natAbs))

/-- The pop condition of the shunting-yard specification, for an
incoming operator op against a stack entry o: o is not a parenthesis,
and o has precedence at least that of op when op is left associative,
respectively strictly greater when op is right associative. -/
def syPopCond (op : Operator) (o : Token) : Bool :=
  !o.isParen &&
    (match OperatorAssociativity.ofToken (Token.Operator op) with
     | OperatorAssociativity.Left =>
         decide (precedence (Token.Operator op) ≤ precedence o)
     | OperatorAssociativity.Right =>
         decide (precedence (Token.Operator op) < precedence o))

/-- The decimal digit characters in order. -/
def digitChar : Nat → Char
  | 0 => '0'
  | 1 => '1'
  | 2 => '2'
  | 3 => '3'
  | 4 => '4'
  | 5 => '5'
  | 6 => '6'
  | 7 => '7'
  | 8 => '8'
  | _ => '9'

set_option linter.unusedVariables false in
/-- The usual decimal rendering of a natural number, most significant
digit first. -/
def decimalDigits (n : Nat) : List Char :=
  if h : n < 10 then [digitChar n]
  else decimalDigits (n / 10) ++ [digitChar (n % 10)]
termination_by n
decreasing_by
  exact Nat.div_lt_self (Nat.lt_of_lt_of_le (by decide) (Nat.le_of_not_lt h)) (by decide)

/-- The input string a/b for natural numbers a and b, written in
decimal. -/
def mkDivExpr (a b : Nat) : String :=
  String.mk (decimalDigits a ++ '/' :: decimalDigits b)

/-! ## Arithmetic helper lemmas -/

/-- natAbs of the truncated remainder is the Nat remainder of the
absolute values. -/
theorem natAbs_tmod (a b : Int) : (a.tmod b).natAbs = a.natAbs % b.natAbs := by
  cases a <;> cases b <;> simp [Int.tmod, Int.natAbs_neg] <;> rfl

/-- gcd is invariant under taking the truncated remainder on the left. -/
theorem gcd_tmod (a b : Int) : Int.gcd (a.tmod b) b = Int.gcd a b := by
  rw [Int.gcd_eq_natAbs, Int.gcd_eq_natAbs, natAbs_tmod, ← Nat.gcd_rec]
  exact Nat.gcd_comm _ _

/-- The lcm of two nonzero integers is nonzero. -/
theorem lcm_cast_ne_zero (a b : Int) (ha : a ≠ 0) (hb : b ≠ 0) :
    (↑(Int.lcm a b) : ℤ) ≠ 0 := by
  intro h0
  have h1 : Int.lcm a b = 0 := Int.natCast_eq_zero.mp h0
  rw [Int.lcm_def] at h1
  exact Nat.lcm_ne_zero (Int.natAbs_ne_zero.mpr ha) (Int.natAbs_ne_zero.mpr hb) h1

/-! ## Behaviour of simplify -/

/-- simplifyTail with a zero divisor aborts: this is the division by
zero of the source. -/
theorem simplifyTail_zero (q r : Int) :
    Value.simplifyTail q r 0 = .error (.panic ("attempt to divide by zero")) := by
  simp [Value.simplifyTail]

/-- simplifyTail with a nonzero divisor, written with truncated division
and remainder. -/
theorem simplifyTail_of_ne_zero (q r d : Int) (hd : d ≠ 0) :
    Value.simplifyTail q r d =
      if r.tmod d ≠ 0 then .ok (.Rational (q + r.tdiv d) (r.tmod d) d)
      else .ok (.Integer (q + r.tdiv d)) := by
  by_cases ht : r.tdiv d = 0
  · have hm : r.tmod d = r := by rw [Int.tmod_def, ht, mul_zero, sub_zero]
    simp [Value.simplifyTail, hd, ht, hm]
  · have hm : r - d * r.tdiv d = r.tmod d := (Int.tmod_def r d).symm
    simp [Value.simplifyTail, hd, ht, hm]

/-- simplifyTail of a reduced fraction with nonzero divisor returns a
normalized value. -/
theorem simplifyTail_normalized (q r d : Int) (hd : d ≠ 0)
    (hcop : Int.gcd r d = 1) :
    ∃ v, Value.simplifyTail q r d = .ok v ∧ v.Normalized := by
  rw [simplifyTail_of_ne_zero q r d hd]
  by_cases hm : r.tmod d = 0
  · exact ⟨.Integer (q + r.tdiv d), by simp [hm], trivial⟩
  · refine ⟨.Rational (q + r.tdiv d) (r.tmod d) d, by simp [hm], hd, ?_, hm, ?_⟩
    · rw [gcd_tmod]; exact hcop
    · rw [natAbs_tmod]
      exact Nat.mod_lt _ (Int.natAbs_pos.mpr hd)

/-- When the gcd of remainder and divisor equals the divisor, the
divisor divides the remainder and simplify returns the Integer obtained
by absorbing the exact quotient. -/
theorem simplify_of_gcd_eq (q r d : Int) (hd : d ≠ 0)
    (hG : (↑(Int.gcd r d) : ℤ) = d) :
    Value.simplify (.Rational q r d) = .ok (.Integer (q + r.tdiv d)) := by
  have hdvd : d ∣ r := by rw [← hG]; exact Int.gcd_dvd_left
  have hm : r.tmod d = 0 := Int.tmod_eq_zero_of_dvd hdvd
  have hstep : Value.simplify (.Rational q r d) = Value.simplifyTail q r d := by
    simp [Value.simplify, hG]
  rw [hstep, simplifyTail_of_ne_zero q r d hd, if_neg (not_not_intro hm)]

/-- When the gcd differs from the divisor, remainder and divisor are
reduced to a coprime pair with nonzero divisor before the tail runs. -/
theorem simplify_of_gcd_ne (q r d : Int) (hd : d ≠ 0)
    (hG : (↑(Int.gcd r d) : ℤ) ≠ d) :
    Value.simplify (.Rational q r d)
      = Value.simplifyTail q (r.tdiv ↑(Int.gcd r d)) (d.tdiv ↑(Int.gcd r d))
    ∧ d.tdiv ↑(Int.gcd r d) ≠ 0
    ∧ Int.gcd (r.tdiv ↑(Int.gcd r d)) (d.tdiv ↑(Int.gcd r d)) = 1 := by
  have hgpos : 0 < Int.gcd r d := Int.gcd_pos_of_ne_zero_right r hd
  refine ⟨by simp [Value.simplify, hG], ?_, ?_⟩
  · rw [← Int.natAbs_pos, Int.natAbs_tdiv, Int.natAbs_ofNat]
    exact Nat.div_pos (Nat.le_of_dvd (Int.natAbs_pos.mpr hd) (Nat.gcd_dvd_right _ _)) hgpos
  · rw [Int.gcd_eq_natAbs, Int.natAbs_tdiv, Int.natAbs_tdiv, Int.natAbs_ofNat]
    exact Nat.coprime_div_gcd_div_gcd hgpos

/-- simplify with a nonzero divisor returns a normalized value. -/
theorem simplify_ok_of_ne_zero (q r d : Int) (hd : d ≠ 0) :
    ∃ v, Value.simplify (.Rational q r d) = .ok v ∧ v.Normalized := by
  by_cases hG : (↑(Int.gcd r d) : ℤ) = d
  · exact ⟨.Integer (q + r.tdiv d), simplify_of_gcd_eq q r d hd hG, trivial⟩
  · obtain ⟨heq, hne, hcop⟩ := simplify_of_gcd_ne q r d hd hG
    obtain ⟨v, hv, hnorm⟩ := simplifyTail_normalized q _ _ hne hcop
    exact ⟨v, heq.trans hv, hnorm⟩

/-- simplify with a zero divisor aborts. -/
theorem simplify_zero_divisor (q r : Int) :
    Value.simplify (.Rational q r 0) = .error (.panic ("attempt to divide by zero")) := by
  by_cases hr : r = 0
  · simp [Value.simplify, hr, simplifyTail_zero]
  · have hG : (↑(Int.gcd r 0) : ℤ) ≠ 0 := by
      simpa [Int.natCast_eq_zero, Int.gcd_eq_zero_iff] using hr
    have h0 : (0 : Int).tdiv ↑(Int.gcd r 0) = 0 := Int.zero_tdiv _
    simp [Value.simplify, hG, h0, simplifyTail_zero]

/-- A value that is already normalized is a fixed point of simplify. -/
theorem simplify_of_normalized (v : Value) (hv : v.Normalized) :
    Value.simplify v = .ok v := by
  cases v with
  | Integer i => rfl
  | Rational q r d =>
    obtain ⟨hd, hcop, hr, hlt⟩ := hv
    have hd1 : d ≠ 1 := by
      intro h
      rw [h] at hlt
      simp at hlt
      exact hr hlt
    have hG : (↑(Int.gcd r d) : ℤ) ≠ d := by rw [hcop]; exact fun h => hd1 h.symm
    obtain ⟨heq, _, _⟩ := simplify_of_gcd_ne q r d hd hG
    have hc : (↑(Int.gcd r d) : ℤ) = 1 := by rw [hcop]; rfl
    rw [heq, hc, Int.tdiv_one, Int.tdiv_one, simplifyTail_of_ne_zero q r d hd]
    have ht : r.tdiv d = 0 := by
      rw [← Int.natAbs_eq_zero, Int.natAbs_tdiv]
      exact Nat.div_eq_of_lt hlt
    have hm : r.tmod d = r := by rw [Int.tmod_def, ht, mul_zero, sub_zero]
    rw [hm, if_pos hr, ht, add_zero]

/-- simplify applied twice agrees with simplify applied once, with an
abort of the first application propagating. -/
theorem simplify_idem (v : Value) :
    (Value.simplify v).bind Value.simplify = Value.simplify v := by
  cases v with
  | Integer i => rfl
  | Rational q r d =>
    by_cases hd : d = 0
    · rw [hd, simplify_zero_divisor]; rfl
    · obtain ⟨w, hw, hnorm⟩ := simplify_ok_of_ne_zero q r d hd
      rw [hw]
      simpa [Except.bind] using simplify_of_normalized w hnorm

/-! ## Normalization through the arithmetic operators -/

/-- Extracting normalization from a successful simplify with nonzero
divisor. -/
theorem normalized_of_simplify_ok (q r d : Int) (hd : d ≠ 0) (v : Value)
    (h : Value.simplify (.Rational q r d) = .ok v) : v.Normalized := by
  obtain ⟨w, hw, hnorm⟩ := simplify_ok_of_ne_zero q r d hd
  rw [hw] at h
  cases h
  exact hnorm

/-- The flattened numerator of a normalized Rational is nonzero. -/
theorem flat_ne_zero (q r d : Int) (h : Value.Normalized (.Rational q r d)) :
    q * d + r ≠ 0 := by
  obtain ⟨hd, _, hr, hlt⟩ := h
  intro h0
  have hr' : r = -(q * d) := by linarith
  have habs : r.natAbs = q.natAbs * d.natAbs := by
    rw [hr', Int.natAbs_neg, Int.natAbs_mul]
  by_cases hq : q = 0
  · exact hr (by rw [hr', hq, zero_mul, neg_zero])
  · have hge : d.natAbs ≤ r.natAbs := by
      rw [habs]
      exact Nat.le_mul_of_pos_left _ (Int.natAbs_pos.mpr hq)
    omega

/-- Add returns only normalized values when fed normalized operands. -/
theorem add_normalized (a b : Value) (ha : a.Normalized) (hb : b.Normalized) :
    ∀ v, Value.add a b = .ok v → v.Normalized := by
  intro v h
  cases a with
  | Integer i =>
    cases b with
    | Integer j => cases h; trivial
    | Rational q r d =>
      cases h
      obtain ⟨hd, hcop, hr, hlt⟩ := hb
      exact ⟨hd, hcop, hr, hlt⟩
  | Rational q r d =>
    cases b with
    | Integer j =>
      cases h
      obtain ⟨hd, hcop, hr, hlt⟩ := ha
      exact ⟨hd, hcop, hr, hlt⟩
    | Rational q2 r2 d2 =>
      have hlcm := lcm_cast_ne_zero d d2 ha.1 hb.1
      exact normalized_of_simplify_ok _ _ _ hlcm v h

/-- Sub returns only normalized values when fed normalized operands. -/
theorem sub_normalized (a b : Value) (ha : a.Normalized) (hb : b.Normalized) :
    ∀ v, Value.sub a b = .ok v → v.Normalized := by
  intro v h
  cases a with
  | Integer i =>
    cases b with
    | Integer j => cases h; trivial
    | Rational q r d =>
      cases h
      obtain ⟨hd, hcop, hr, hlt⟩ := hb
      exact ⟨hd, hcop, hr, hlt⟩
  | Rational q r d =>
    cases b with
    | Integer j =>
      cases h
      obtain ⟨hd, hcop, hr, hlt⟩ := ha
      exact ⟨hd, hcop, hr, hlt⟩
    | Rational q2 r2 d2 =>
      have hlcm := lcm_cast_ne_zero d d2 ha.1 hb.1
      exact normalized_of_simplify_ok _ _ _ hlcm v h

/-- Mul returns only normalized values when fed normalized operands. -/
theorem mul_normalized (a b : Value) (ha : a.Normalized) (hb : b.Normalized) :
    ∀ v, Value.mul a b = .ok v → v.Normalized := by
  intro v h
  cases a with
  | Integer i =>
    cases b with
    | Integer j => cases h; trivial
    | Rational q r d =>
      have hd1 : d * 1 ≠ 0 := by simpa using hb.1
      exact normalized_of_simplify_ok _ _ _ hd1 v h
  | Rational q r d =>
    cases b with
    | Integer j =>
      have hd1 : d * 1 ≠ 0 := by simpa using ha.1
      exact normalized_of_simplify_ok _ _ _ hd1 v h
    | Rational q2 r2 d2 =>
      have hdd : d * d2 ≠ 0 := mul_ne_zero ha.1 hb.1
      exact normalized_of_simplify_ok _ _ _ hdd v h

/-- Div returns only normalized values when fed normalized operands;
a zero divisor makes it abort instead of returning. -/
theorem div_normalized (a b : Value) (ha : a.Normalized) (hb : b.Normalized) :
    ∀ v, Value.div a b = .ok v → v.Normalized := by
  intro v h
  cases a with
  | Integer i =>
    cases b with
    | Integer j =>
      by_cases hj : j = 0
      · rw [hj] at h
        rw [show Value.div (.Integer i) (.Integer 0) = Value.simplify (.Rational 0 i 0) from rfl,
          simplify_zero_divisor] at h
        cases h
      · exact normalized_of_simplify_ok _ _ _ hj v h
    | Rational q r d =>
      -- the or-pattern arm computes the Rational divided by the Integer
      by_cases hi : i = 0
      · rw [hi] at h
        have hrw : Value.div (.Integer 0) (.Rational q r d)
            = Value.simplify (.Rational 0 (q * d + r) (d * 0)) := by
          show Value.divRatRat q r d 0 0 1 = _
          simp [Value.divRatRat]
        rw [hrw, mul_zero, simplify_zero_divisor] at h
        cases h
      · have hne : d * (i * 1 + 0) ≠ 0 := by
          simpa using mul_ne_zero hb.1 hi
        exact normalized_of_simplify_ok _ _ _ hne v h
  | Rational q r d =>
    cases b with
    | Integer j =>
      by_cases hj : j = 0
      · rw [hj] at h
        have hrw : Value.div (.Rational q r d) (.Integer 0)
            = Value.simplify (.Rational 0 (q * d + r) (d * 0)) := by
          show Value.divRatRat q r d 0 0 1 = _
          simp [Value.divRatRat]
        rw [hrw, mul_zero, simplify_zero_divisor] at h
        cases h
      · have hne : d * (j * 1 + 0) ≠ 0 := by
          simpa using mul_ne_zero ha.1 hj
        exact normalized_of_simplify_ok _ _ _ hne v h
    | Rational q2 r2 d2 =>
      have hne : d * (q2 * d2 + r2) ≠ 0 := mul_ne_zero ha.1 (flat_ne_zero q2 r2 d2 hb)
      exact normalized_of_simplify_ok _ _ _ hne v h

/-- Negation preserves normalization. -/
theorem neg_normalized (a : Value) (ha : a.Normalized) : (-a).Normalized := by
  cases a with
  | Integer i => trivial
  | Rational q r d =>
    obtain ⟨hd, hcop, hr, hlt⟩ := ha
    exact ⟨hd, hcop, hr, hlt⟩
/-! ## The shunting-yard pop loop -/

/-- The inner pop loop of the operator case splits the stack exactly at
the specification condition: pop while the top is a non-parenthesis
token of precedence at least (strictly greater than, for the
right-associative case) the precedence of the incoming operator. -/
theorem popLoop_eq (op : Operator) :
    ∀ stack : List Token,
      popLoop (Token.Operator op) (precedence (Token.Operator op)) stack =
        (stack.takeWhile (syPopCond op), stack.dropWhile (syPopCond op))
  | [] => by simp [popLoop]
  | o :: rest => by
    have ih := popLoop_eq op rest
    rcases o with op' | v | p
    · rcases hassoc : OperatorAssociativity.ofToken (Token.Operator op) with _ | _
      · by_cases hlt : precedence (Token.Operator op') < precedence (Token.Operator op)
        · have hcond : syPopCond op (Token.Operator op') = false := by
            simp [syPopCond, hassoc, Token.isParen, Nat.not_le.mpr hlt]
          simp [popLoop, hassoc, hlt, hcond, List.takeWhile_cons, List.dropWhile_cons]
        · have hcond : syPopCond op (Token.Operator op') = true := by
            simp [syPopCond, hassoc, Token.isParen, Nat.le_of_not_lt hlt]
          simp [popLoop, hassoc, hlt, hcond, List.takeWhile_cons, List.dropWhile_cons, ih]
      · by_cases hle : precedence (Token.Operator op') ≤ precedence (Token.Operator op)
        · have hcond : syPopCond op (Token.Operator op') = false := by
            simp [syPopCond, hassoc, Token.isParen, Nat.not_lt.mpr hle]
          simp [popLoop, hassoc, hle, hcond, List.takeWhile_cons, List.dropWhile_cons]
        · have hcond : syPopCond op (Token.Operator op') = true := by
            simp [syPopCond, hassoc, Token.isParen, Nat.lt_of_not_le hle]
          simp [popLoop, hassoc, hle, hcond, List.takeWhile_cons, List.dropWhile_cons, ih]
    · rcases hassoc : OperatorAssociativity.ofToken (Token.Operator op) with _ | _
      · by_cases hlt : precedence (Token.Value v) < precedence (Token.Operator op)
        · have hcond : syPopCond op (Token.Value v) = false := by
            simp [syPopCond, hassoc, Token.isParen, Nat.not_le.mpr hlt]
          simp [popLoop, hassoc, hlt, hcond, List.takeWhile_cons, List.dropWhile_cons]
        · have hcond : syPopCond op (Token.Value v) = true := by
            simp [syPopCond, hassoc, Token.isParen, Nat.le_of_not_lt hlt]
          simp [popLoop, hassoc, hlt, hcond, List.takeWhile_cons, List.dropWhile_cons, ih]
      · by_cases hle : precedence (Token.Value v) ≤ precedence (Token.Operator op)
        · have hcond : syPopCond op (Token.Value v) = false := by
            simp [syPopCond, hassoc, Token.isParen, Nat.not_lt.mpr hle]
          simp [popLoop, hassoc, hle, hcond, List.takeWhile_cons, List.dropWhile_cons]
        · have hcond : syPopCond op (Token.Value v) = true := by
            simp [syPopCond, hassoc, Token.isParen, Nat.lt_of_not_le hle]
          simp [popLoop, hassoc, hle, hcond, List.takeWhile_cons, List.dropWhile_cons, ih]
    · simp [popLoop, syPopCond, Token.isParen, List.takeWhile_cons, List.dropWhile_cons]

/-! ## Lexing and evaluating the rendered division input -/

theorem digitChar_isDigit (k : Nat) : (digitChar k).isDigit = true := by
  rcases k with _|_|_|_|_|_|_|_|_|_|k <;> first | decide | rfl

theorem digitChar_ne_minus (k : Nat) : (digitChar k == '-') = false := by
  rcases k with _|_|_|_|_|_|_|_|_|_|k <;> first | decide | rfl

theorem digitChar_ne_dot (k : Nat) : (digitChar k != '.') = true := by
  rcases k with _|_|_|_|_|_|_|_|_|_|k <;> first | decide | rfl

theorem digitChar_recognized (k : Nat) :
    recognizedChars.contains (digitChar k) = true := by
  rcases k with _|_|_|_|_|_|_|_|_|_|k <;> first | decide | rfl

theorem digitVal_digitChar (k : Nat) (h : k < 10) : digitVal (digitChar k) = k := by
  rcases k with _|_|_|_|_|_|_|_|_|_|k
  · decide
  · decide
  · decide
  · decide
  · decide
  · decide
  · decide
  · decide
  · decide
  · decide
  · omega

theorem mem_decimalDigits (n : Nat) :
    ∀ c ∈ decimalDigits n, ∃ k, c = digitChar k := by
  induction n using Nat.strong_induction_on with
  | _ n ih =>
    rw [decimalDigits]
    split
    · intro c hc
      simp at hc
      exact ⟨n, hc⟩
    · intro c hc
      rw [List.mem_append] at hc
      rcases hc with hc | hc
      · exact ih (n / 10) (Nat.div_lt_self (by omega) (by decide)) c hc
      · simp at hc
        exact ⟨n % 10, hc⟩

theorem decimalDigits_ne_nil (n : Nat) : decimalDigits n ≠ [] := by
  rw [decimalDigits]
  split
  · simp
  · simp

theorem digitsVal_append_singleton (l : List Char) (c : Char) :
    digitsVal (l ++ [c]) = 10 * digitsVal l + digitVal c := by
  simp [digitsVal, List.foldl_append]

theorem digitsVal_decimalDigits (n : Nat) : digitsVal (decimalDigits n) = n := by
  induction n using Nat.strong_induction_on with
  | _ n ih =>
    rw [decimalDigits]
    split
    · rename_i h
      simp [digitsVal, digitVal_digitChar n h]
    · rename_i h
      rw [digitsVal_append_singleton,
        ih (n / 10) (Nat.div_lt_self (by omega) (by decide)),
        digitVal_digitChar (n % 10) (Nat.mod_lt _ (by decide))]
      omega

/-- Scanning a run of digit characters accumulates them into the
buffer. -/
theorem scan_digits (ds : List Char) (hds : ∀ c ∈ ds, ∃ k, c = digitChar k) :
    ∀ rest buffer tokens,
      scanTokens (ds ++ rest) buffer tokens = scanTokens rest (buffer ++ ds) tokens := by
  induction ds with
  | nil => intro rest buffer tokens; simp
  | cons c cs ih =>
    intro rest buffer tokens
    obtain ⟨k, hk⟩ := hds c (by simp)
    have h1 : (c == '-') = false := by rw [hk]; exact digitChar_ne_minus k
    have h2 : c.isDigit = true := by rw [hk]; exact digitChar_isDigit k
    have ihtail := ih (fun c hc => hds c (by simp [hc])) rest (buffer ++ [c]) tokens
    simp only [List.cons_append, scanTokens, h1, h2, Bool.and_false, Bool.false_and,
      Bool.and_true, Bool.true_or, if_true, if_false, Bool.false_eq_true, ite_false, ite_true,
      List.append_eq]
    rw [ihtail]
    simp

/-- Parsing a buffer that is a pure digit run yields the exact integer
as an unreduced Rational over one. -/
theorem parseLiteral_digits (n : Nat) :
    parseLiteral (decimalDigits n) = .ok (Token.Value (.Rational 0 (↑n) 1)) := by
  have hnodot : ∀ c ∈ decimalDigits n, (c != '.') = true := by
    intro c hc
    obtain ⟨k, hk⟩ := mem_decimalDigits n c hc
    rw [hk]; exact digitChar_ne_dot k
  have hcount : (decimalDigits n).count '.' = 0 := by
    rw [List.count_eq_zero]
    intro hmem
    have hdot := hnodot '.' hmem
    simp at hdot
  have hany : (decimalDigits n).any (fun c => c.isDigit) = true := by
    obtain ⟨c, hc⟩ := List.exists_mem_of_ne_nil _ (decimalDigits_ne_nil n)
    obtain ⟨k, hk⟩ := mem_decimalDigits n c hc
    exact List.any_eq_true.mpr ⟨c, hc, by rw [hk]; exact digitChar_isDigit k⟩
  have htake : (decimalDigits n).takeWhile (fun c => c != '.') = decimalDigits n :=
    List.takeWhile_eq_self_iff.mpr hnodot
  have hdrop : (decimalDigits n).dropWhile (fun c => c != '.') = [] :=
    List.dropWhile_eq_nil_iff.mpr hnodot
  rw [parseLiteral, if_pos ⟨by omega, hany⟩]
  congr 1
  congr 1
  rw [Value.fromDecimal]
  simp only [htake, hdrop, List.drop_nil, List.length_nil, pow_zero, List.append_nil]
  rw [digitsVal_decimalDigits]
  simp [Nat.gcd_one_right]

/-- Tokenizing the rendered a/b input yields literal, division
operator, literal. -/
theorem tokenize_mkDivExpr (a b : Nat) :
    tokenize (mkDivExpr a b) =
      .ok [Token.Value (.Rational 0 (↑a) 1), Token.Operator .Div,
           Token.Value (.Rational 0 (↑b) 1)] := by
  have hlist : (mkDivExpr a b).toList = decimalDigits a ++ '/' :: decimalDigits b := rfl
  have hrec : ∀ c ∈ (mkDivExpr a b).toList, recognizedChars.contains c = true := by
    rw [hlist]
    intro c hc
    rcases List.mem_append.mp hc with hc | hc
    · obtain ⟨k, hk⟩ := mem_decimalDigits a c hc
      rw [hk]; exact digitChar_recognized k
    · rcases List.mem_cons.mp hc with hc | hc
      · rw [hc]; decide
      · obtain ⟨k, hk⟩ := mem_decimalDigits b c hc
        rw [hk]; exact digitChar_recognized k
  rw [tokenize, List.filter_eq_self.mpr hrec, hlist]
  rw [scan_digits (decimalDigits a) (mem_decimalDigits a) ('/' :: decimalDigits b) [] []]
  have hne : (decimalDigits a).isEmpty = false := by
    rcases h : decimalDigits a with _ | _
    · exact absurd h (decimalDigits_ne_nil a)
    · rfl
  rw [List.nil_append, scanTokens]
  rw [if_neg (by simp [hne]), if_neg (by decide), if_neg (by simp [hne]),
    parseLiteral_digits a]
  show scanTokens (decimalDigits b) []
      ([] ++ [Token.Value (Value.Rational 0 (↑a) 1)] ++ [Token.Operator Operator.Div]) = _
  have hneb : (decimalDigits b).isEmpty = false := by
    rcases h : decimalDigits b with _ | _
    · exact absurd h (decimalDigits_ne_nil b)
    · rfl
  rw [← List.append_nil (decimalDigits b),
    scan_digits (decimalDigits b) (mem_decimalDigits b) [] [] _]
  rw [List.nil_append, scanTokens, if_neg (by simp [hneb]), parseLiteral_digits b]
  rfl

/-- The division operator applied to two freshly lexed integer literals
reduces to simplify of the simple fraction. -/
theorem div_lit (a b : Int) :
    Value.div (.Rational 0 a 1) (.Rational 0 b 1) = Value.simplify (.Rational 0 a b) := by
  show Value.divRatRat 0 a 1 0 b 1 = _
  simp [Value.divRatRat]

/-- The full pipeline on the rendered a/b input reduces to simplify of
the fraction a over b. -/
theorem evaluate_mkDivExpr (a b : Nat) :
    evaluate (mkDivExpr a b) = Value.simplify (.Rational 0 (↑a) (↑b)) := by
  rw [evaluate, tokenize_mkDivExpr a b]
  show (match Tree.ofTokens (shunting_yard
      [Token.Value (Value.Rational 0 (↑a) 1), Token.Operator .Div,
       Token.Value (Value.Rational 0 (↑b) 1)]) with
    | Except.error e => Except.error e
    | Except.ok tree => tree.evaluate) = _
  rw [show shunting_yard
      [Token.Value (Value.Rational 0 (↑a) 1), Token.Operator .Div,
       Token.Value (Value.Rational 0 (↑b) 1)]
      = [Token.Value (Value.Rational 0 (↑a) 1), Token.Value (Value.Rational 0 (↑b) 1),
         Token.Operator .Div] from rfl]
  rw [show Tree.ofTokens
      [Token.Value (Value.Rational 0 (↑a) 1), Token.Value (Value.Rational 0 (↑b) 1),
       Token.Operator .Div]
      = .ok { root := Node.mk (Token.Operator .Div)
                (some (Node.mk (Token.Value (Value.Rational 0 (↑a) 1)) none none))
                (some (Node.mk (Token.Value (Value.Rational 0 (↑b) 1)) none none)) } from rfl]
  show Operator.evaluate .Div (Value.Rational 0 (↑a) 1) (Value.Rational 0 (↑b) 1) = _
  rw [Operator.evaluate]
  rw [if_neg (by simp [Value.eqInt])]
  exact div_lit (↑a) (↑b)

/-- Integer over integer division when the divisor divides exactly:
simplify collapses to the integer quotient. -/
theorem simplify_intdiv_dvd (a b : Int) (hb : 0 < b) (hdvd : b ∣ a) :
    Value.simplify (.Rational 0 a b) = .ok (.Integer (a.tdiv b)) := by
  have hG : (↑(Int.gcd a b) : ℤ) = b := by
    rw [Int.gcd_eq_right hdvd, Int.natAbs_of_nonneg hb.le]
  rw [simplify_of_gcd_eq 0 a b hb.ne' hG, zero_add]

/-- Integer over integer division when the divisor does not divide:
simplify returns a Rational in lowest terms with proper remainder. -/
theorem simplify_intdiv_not_dvd (a b : Int) (hb : 0 < b) (hnd : ¬ b ∣ a) :
    ∃ q r d : Int, Value.simplify (.Rational 0 a b) = .ok (.Rational q r d)
      ∧ Int.gcd r d = 1 ∧ r.natAbs < d.natAbs := by
  have hb' : b ≠ 0 := hb.ne'
  have hG : (↑(Int.gcd a b) : ℤ) ≠ b := by
    intro h
    exact hnd (h ▸ Int.gcd_dvd_left)
  obtain ⟨heq, hne, hcop⟩ := simplify_of_gcd_ne 0 a b hb' hG
  have hm : (a.tdiv ↑(Int.gcd a b)).tmod (b.tdiv ↑(Int.gcd a b)) ≠ 0 := by
    intro hm0
    have hdvd1 : b.tdiv ↑(Int.gcd a b) ∣ a.tdiv ↑(Int.gcd a b) :=
      Int.dvd_of_tmod_eq_zero hm0
    have habs1 : (b.tdiv ↑(Int.gcd a b)).natAbs = 1 := by
      have hg := Nat.gcd_eq_right (Int.natAbs_dvd_natAbs.mpr hdvd1)
      rw [Int.gcd_eq_natAbs] at hcop
      omega
    have hb1 : (b.tdiv ↑(Int.gcd a b)).natAbs = b.natAbs / Int.gcd a b := by
      rw [Int.natAbs_tdiv, Int.natAbs_ofNat]; rfl
    have hgdvd : Int.gcd a b ∣ b.natAbs := Nat.gcd_dvd_right _ _
    have hbg : b.natAbs = Int.gcd a b * 1 :=
      Nat.eq_mul_of_div_eq_right hgdvd (by rw [← hb1]; exact habs1)
    apply hG
    have hcast : (↑(Int.gcd a b) : ℤ) = ↑b.natAbs := by rw [hbg, mul_one]
    rw [hcast, Int.natAbs_of_nonneg hb.le]
  refine ⟨_, _, _, by rw [heq, simplifyTail_of_ne_zero _ _ _ hne, if_pos hm], ?_, ?_⟩
  · rw [gcd_tmod]; exact hcop
  · rw [natAbs_tmod]
    exact Nat.mod_lt _ (Int.natAbs_pos.mpr hne)

/-! ## Claim theorems -/

/-- C1 counterexample: evaluating the input 1/0 does not produce a
recoverable DivisionByZero result; it aborts the process with the
arithmetic divide-by-zero panic raised inside simplify, because the
zero literal is lexed as Rational 0 0 1 and therefore slips past the
Integer-zero guard of the Div operator. -/
theorem c1_counterexample :
    evaluate "1/0" = .error (.panic ("attempt to divide by zero")) := by decide

/-- C1 amended: division by an exact zero is a process abort, never a
recoverable error.  When the right operand is the literal Integer zero,
Operator.evaluate aborts with the Divide by zero panic for every left
operand; on the pipeline input 1/0 the zero is a Rational literal, the
guard does not fire, and the abort instead comes from the division by
zero inside simplify. -/
theorem c1_division_by_zero_panics :
    (∀ a : Value,
      Operator.evaluate .Div a (.Integer 0) = .error (.panic ("Divide by zero")))
    ∧ evaluate "1/0" = .error (.panic ("attempt to divide by zero")) :=
  ⟨fun _ => rfl, by decide⟩

/-- C2 counterexample: evaluating the input with a dangling left
parenthesis does not return a recoverable ParseError; the parenthesis
token survives into the postfix stream and the tree builder aborts in
code marked unreachable. -/
theorem c2_counterexample :
    evaluate "(1+2" = .error (.panic ("internal error: entered unreachable code")) := by
  decide

/-- C2 amended: unmatched parentheses are not recoverable errors.  A
right parenthesis with no matching left parenthesis is silently
discarded, so the input 1+2) evaluates to Integer 3, while a dangling
left parenthesis is flushed into the postfix output and makes the tree
builder abort in unreachable code. -/
theorem c2_unmatched_paren_behavior :
    evaluate "1+2)" = .ok (.Integer 3)
    ∧ evaluate "(1" = .error (.panic ("internal error: entered unreachable code")) :=
  ⟨by decide, by decide⟩

/-- C3: the full pipeline on the input -10 + -5 returns Integer 13, not
the Integer -15 required by the claim.  Negation encodes a negative
value by the sentinel quotient -1, and addition then combines quotient
and remainder fields numerically, turning -10 + -5 into
(-1 + 10) + (-1 + 5) = 13. -/
theorem c3_negative_addition_bug :
    evaluate "-10 + -5" = .ok (.Integer 13) := by decide

/-- C4: the shunting-yard conversion appends value tokens directly to
the output; for an operator token it pops from the operator stack to
the output exactly the maximal prefix of non-parenthesis tokens whose
precedence is at least the precedence of the incoming operator for a
left-associative operator, respectively strictly greater for the
right-associative one, then pushes the operator on top of the rest;
the popped prefix never contains a parenthesis; at end of input the
whole remaining stack is appended to the output; and USub is the only
right-associative operator. -/
theorem c4_shunting_yard_steps :
    (∀ (v : Value) (rest output opstack : List Token),
        syGo (Token.Value v :: rest) output opstack
          = syGo rest (output ++ [Token.Value v]) opstack)
  ∧ (∀ (op : Operator) (rest output opstack : List Token),
        syGo (Token.Operator op :: rest) output opstack
          = syGo rest (output ++ opstack.takeWhile (syPopCond op))
              (Token.Operator op :: opstack.dropWhile (syPopCond op)))
  ∧ (∀ (op : Operator) (opstack : List Token),
        (opstack.takeWhile (syPopCond op)).all (fun t => !t.isParen) = true)
  ∧ (∀ output opstack : List Token, syGo [] output opstack = output ++ opstack)
  ∧ (∀ op : Operator,
        OperatorAssociativity.ofToken (Token.Operator op) = OperatorAssociativity.Right
          ↔ op = Operator.USub) := by
  refine ⟨fun v rest output opstack => by simp [syGo],
          fun op rest output opstack => by simp [syGo, popLoop_eq],
          fun op opstack => ?_,
          fun output opstack => by simp [syGo],
          fun op => by cases op <;> simp [OperatorAssociativity.ofToken]⟩
  rw [List.all_eq_true]
  intro t ht
  have hc := List.mem_takeWhile_imp ht
  simp [syPopCond] at hc
  simp [hc.1]

/-- C5 counterexample: the mixed Integer plus Rational arm of Add
returns without simplifying, so it can return a value violating the
normalization invariant; the operand Rational 0 7 1 used here is
exactly what the lexer produces for the literal 7. -/
theorem c5_counterexample :
    Value.add (.Integer 0) (.Rational 0 7 1) = .ok (.Rational 0 7 1)
    ∧ ¬ Value.Normalized (.Rational 0 7 1) :=
  ⟨rfl, by decide⟩

/-- C5 amended: when both operands are themselves normalized, every
value actually returned by Add, Sub, Mul, Div (a division by an exact
zero aborts instead of returning) and by negation satisfies the
normalization invariant. -/
theorem c5_ops_preserve_normalization :
    ∀ a b : Value, a.Normalized → b.Normalized →
      (∀ v, Value.add a b = .ok v → v.Normalized)
      ∧ (∀ v, Value.sub a b = .ok v → v.Normalized)
      ∧ (∀ v, Value.mul a b = .ok v → v.Normalized)
      ∧ (∀ v, Value.div a b = .ok v → v.Normalized)
      ∧ (-a).Normalized :=
  fun a b ha hb =>
    ⟨add_normalized a b ha hb, sub_normalized a b ha hb, mul_normalized a b ha hb,
     div_normalized a b ha hb, neg_normalized a ha⟩

/-- C5 witness: instantiating the amended claim on one half plus one
third, whose sum five sixths is indeed normalized. -/
theorem c5_witness : Value.Normalized (.Rational 0 5 6) :=
  (c5_ops_preserve_normalization (.Rational 0 1 2) (.Rational 0 1 3)
    (by decide) (by decide)).1 (.Rational 0 5 6) (by decide)

/-- C6 counterexample: for a = -5 and b = 2 the claim demands a
normalized Rational since 2 does not divide -5, but evaluating the
expression -5/2 yields Integer 2: the unary minus lexes as USub, its
sentinel encoding Rational -1 5 1 flattens to the numerator 4, and
4/2 collapses to the integer 2. -/
theorem c6_counterexample : evaluate "-5/2" = .ok (.Integer 2) := by decide

/-- C6 amended: for every nonnegative a and positive b, both below
2 ^ 53 so that the f64 round trip of their decimal literals is exact,
evaluating the rendered expression a/b yields Integer of the exact
quotient when b divides a, and otherwise a Rational whose remainder and
divisor are coprime with the remainder strictly smaller in absolute
value. -/
theorem c6_division_normalized :
    ∀ a b : Nat, a < 2 ^ 53 → b < 2 ^ 53 → 0 < b →
      (((b : ℤ) ∣ (a : ℤ)) →
        evaluate (mkDivExpr a b) = .ok (.Integer ((a / b : Nat) : ℤ)))
      ∧ (¬ ((b : ℤ) ∣ (a : ℤ)) →
        ∃ q r d : ℤ, evaluate (mkDivExpr a b) = .ok (.Rational q r d)
          ∧ Int.gcd r d = 1 ∧ r.natAbs < d.natAbs) := by
  intro a b _ha53 _hb53 hb
  have hbz : (0 : ℤ) < ↑b := Int.natCast_pos.mpr hb
  constructor
  · intro hdvd
    rw [evaluate_mkDivExpr, simplify_intdiv_dvd _ _ hbz hdvd]
    rfl
  · intro hnd
    obtain ⟨q, r, d, heq, hcop, hlt⟩ := simplify_intdiv_not_dvd _ _ hbz hnd
    exact ⟨q, r, d, by rw [evaluate_mkDivExpr, heq], hcop, hlt⟩

/-- C6 witness: instantiating the amended claim at one divided by
two. -/
theorem c6_witness :
    ∃ q r d : ℤ, evaluate (mkDivExpr 1 2) = .ok (.Rational q r d)
      ∧ Int.gcd r d = 1 ∧ r.natAbs < d.natAbs :=
  (c6_division_normalized 1 2 (by norm_num) (by norm_num) (by decide)).2 (by decide)

/-- C7 counterexample: the whole-number literal 10 is lexed to the
value Rational 0 10 1, which is not normalized (its remainder is not
below its divisor) and is not an Integer, so literal construction does
not simplify. -/
theorem c7_counterexample :
    parseLiteral ("10".toList) = .ok (.Value (.Rational 0 10 1))
    ∧ ¬ Value.Normalized (.Rational 0 10 1)
    ∧ (∀ i : ℤ, Value.Rational 0 10 1 ≠ .Integer i) :=
  ⟨by decide, by decide, fun _ h => Value.noConfusion h⟩

/-- C7 amended: a successfully parsed decimal literal always becomes a
Rational with quotient zero whose fraction is exact and reduced
(coprime remainder and divisor, positive divisor), but it is never
simplified further: quotient absorption does not happen and whole
numbers are not collapsed to Integer. -/
theorem c7_literal_reduced_not_simplified :
    ∀ (s : List Char) (t : Token), parseLiteral s = .ok t →
      ∃ r d : ℤ, t = Token.Value (.Rational 0 r d) ∧ Int.gcd r d = 1 ∧ 0 < d := by
  intro s t h
  rw [parseLiteral] at h
  split at h
  · cases h
    rw [Value.fromDecimal]
    refine ⟨_, _, rfl, ?_, ?_⟩
    · have hgpos : 0 < Nat.gcd (digitsVal (s.takeWhile (fun c => c != '.')
          ++ (s.dropWhile (fun c => c != '.')).drop 1))
          (10 ^ ((s.dropWhile (fun c => c != '.')).drop 1).length) :=
        Nat.gcd_pos_of_pos_right _ (Nat.pos_pow_of_pos _ (by decide))
      rw [Int.gcd_eq_natAbs, Int.natAbs_ofNat, Int.natAbs_ofNat]
      exact Nat.coprime_div_gcd_div_gcd hgpos
    · have hgpos : 0 < Nat.gcd (digitsVal (s.takeWhile (fun c => c != '.')
          ++ (s.dropWhile (fun c => c != '.')).drop 1))
          (10 ^ ((s.dropWhile (fun c => c != '.')).drop 1).length) :=
        Nat.gcd_pos_of_pos_right _ (Nat.pos_pow_of_pos _ (by decide))
      have hd : 0 < 10 ^ ((s.dropWhile (fun c => c != '.')).drop 1).length :=
        Nat.pos_pow_of_pos _ (by decide)
      exact_mod_cast Nat.div_pos (Nat.le_of_dvd hd (Nat.gcd_dvd_right _ _)) hgpos
  · cases h

/-- C7 witness: instantiating the amended claim at the literal 10. -/
theorem c7_witness :
    ∃ r d : ℤ, Token.Value (Value.Rational 0 10 1) = Token.Value (.Rational 0 r d)
      ∧ Int.gcd r d = 1 ∧ 0 < d :=
  c7_literal_reduced_not_simplified ("10".toList) (.Value (.Rational 0 10 1)) (by decide)

/-- C8: subtraction between an Integer and a Rational is insensitive to
operand order: both orders take the same or-pattern arm of Sub and
produce the Rational with quotient minus the integer over the unchanged
fraction. -/
theorem c8_sub_mixed_orderless :
    ∀ i q r d : ℤ,
      Value.sub (.Integer i) (.Rational q r d) = .ok (.Rational (q - i) r d)
      ∧ Value.sub (.Rational q r d) (.Integer i) = .ok (.Rational (q - i) r d) :=
  fun _ _ _ _ => ⟨rfl, rfl⟩

/-- C9 counterexample: the recognized character set of the claim omits
the hat character, which the code keeps; deleting the characters
outside the claimed set from 2^3 gives 23, and the two strings tokenize
differently, because the hat separates two literals. -/
theorem c9_counterexample : tokenize "2^3" ≠ tokenize "23" := by decide

/-- C9 amended: with the recognized set of the code (digits, dot, the
four operators, the hat and both parentheses), tokenize first discards
every character outside the set and scans only the filtered string, so
tokenizing any input equals tokenizing its filtered form and
unrecognized characters never cause an error. -/
theorem c9_tokenize_filter :
    ∀ s : String,
      tokenize (String.mk (s.toList.filter (fun c => recognizedChars.contains c)))
        = tokenize s := by
  intro s
  unfold tokenize
  rw [show (String.mk (s.toList.filter (fun c => recognizedChars.contains c))).toList
      = s.toList.filter (fun c => recognizedChars.contains c) from rfl,
    List.filter_filter]
  congr 1
  simp

/-- C10: simplify is idempotent; applying simplify to the result of
simplify changes nothing, with an abort of the inner application
propagating unchanged. -/
theorem c10_simplify_idempotent :
    ∀ v : Value, (Value.simplify v).bind Value.simplify = Value.simplify v :=
  simplify_idem

end RationalPemdas
